import Mathlib

/-!
Verification of `get_tracks.py` (Apple Music playlist extractor + YouTube
matcher/downloader).  Python strings are modelled as lists of characters,
Python numbers as rationals, Python dicts/JSON values by the `Json` type
below, and raisable Python code by `Except PyErr`.  The fuzzy string
similarity `fuzz.ratio` from the external `fuzzywuzzy` library is an
external collaborator and is modelled as an abstract function parameter
`simfn`.
-/

/-- Python exception classes that the modelled code can raise. -/
inductive PyErr where
  | keyError
  | typeError
  | indexError
  | attrError
  | nameError
deriving DecidableEq

instance {ε α : Type} [DecidableEq ε] [DecidableEq α] : DecidableEq (Except ε α)
  | .ok a, .ok b => decidable_of_iff (a = b) (by simp)
  | .error e, .error f => decidable_of_iff (e = f) (by simp)
  | .ok _, .error _ => isFalse (by simp)
  | .error _, .ok _ => isFalse (by simp)

/-- ASCII lowercasing of one character, as `str.lower` acts on the ASCII
range (the inputs of interest are ASCII). -/
def pyLowerChar (c : Char) : Char :=
  if 'A' ≤ c && c ≤ 'Z' then Char.ofNat (c.toNat + 32) else c

/-- Model of Python `str.lower`. -/
def pyLower (s : List Char) : List Char := s.map pyLowerChar

/-- Python's notion of whitespace for `str.strip`. -/
def pyIsSpace (c : Char) : Bool :=
  c == ' ' || c == '\t' || c == '\n' || c == '\r' || c == '\x0b' || c == '\x0c'

/-- Model of Python `str.strip()`: drop whitespace from both ends. -/
def pyStrip (s : List Char) : List Char :=
  ((s.dropWhile pyIsSpace).reverse.dropWhile pyIsSpace).reverse

/-- Worker for `pyReplace`: delete every occurrence of the non-empty
pattern `p :: ps`, scanning left to right, non-overlapping, exactly as
Python `s.replace(pat, '')`.  The `Nat` argument is recursion fuel; each
step consumes at least one character, so fuel `s.length` never runs out
(the `0` branch is unreachable from `pyReplace`). -/
def pyReplaceGo (p : Char) (ps : List Char) : Nat → List Char → List Char
  | _, [] => []
  | 0, s => s
  | fuel + 1, c :: cs =>
    if (p :: ps).isPrefixOf (c :: cs) then pyReplaceGo p ps fuel (cs.drop ps.length)
    else c :: pyReplaceGo p ps fuel cs

/-- Model of Python `s.replace(pat, '')`.  (For the empty pattern Python
returns `s` unchanged when the replacement is itself empty.) -/
def pyReplace (pat : List Char) (s : List Char) : List Char :=
  match pat with
  | [] => s
  | p :: ps => pyReplaceGo p ps s.length s

/-- `containsSub pat s` is true when `pat` occurs as a contiguous
substring of `s`. -/
def containsSub (pat : List Char) : List Char → Bool
  | [] => pat.isEmpty
  | c :: cs => pat.isPrefixOf (c :: cs) || containsSub pat cs

/-- Number of occurrences of a character in a string, used as a measure
in the normalization proofs. -/
def countc (c : Char) : List Char → Nat
  | [] => 0
  | x :: xs => (if x = c then 1 else 0) + countc c xs

/-- JSON values (and, equally, the Python dict/list/str/number values the
script manipulates).  Numbers are rationals: the pages carry integers and
the script later produces fractional durations. -/
inductive Json where
  | null
  | jbool (b : Bool)
  | num (q : ℚ)
  | str (s : List Char)
  | arr (xs : List Json)
  | obj (fields : List (List Char × Json))

/-- Dict lookup on the field list of a `Json.obj`. -/
def jlookup : List (List Char × Json) → List Char → Option Json
  | [], _ => none
  | (k, v) :: rest, key => if k = key then some v else jlookup rest key

/-- Model of Python `j[key]` for a string key: `KeyError` when absent,
`TypeError` when `j` is not a dict. -/
def jget (j : Json) (key : List Char) : Except PyErr Json :=
  match j with
  | .obj o =>
    match jlookup o key with
    | some v => .ok v
    | none => .error .keyError
  | _ => .error .typeError

/-- Model of Python `j[0]` as used on the decoded script blocks: first
element of a list, first character of a string, `KeyError` on a dict
without the key `0`, `TypeError` otherwise. -/
def pyIndex0 : Json → Except PyErr Json
  | .arr (x :: _) => .ok x
  | .arr [] => .error .indexError
  | .str (c :: _) => .ok (.str [c])
  | .str [] => .error .indexError
  | .obj _ => .error .keyError
  | _ => .error .typeError

/-- Model of Python iteration `for x in j`: lists yield their elements,
strings their characters, dicts their keys; other values raise
`TypeError`. -/
def jiter : Json → Except PyErr (List Json)
  | .arr xs => .ok xs
  | .str cs => .ok (cs.map fun c => .str [c])
  | .obj o => .ok (o.map fun kv => .str kv.1)
  | _ => .error .typeError

/-- Model of `d.get(key, '')` for the string-valued fields of the page
data.  Non-string values (which the pages do not produce for these
fields) are collapsed to the default. -/
def jstrD : Option Json → List Char
  | some (.str s) => s
  | _ => []

/-- Model of `d.get(key, 0)` for the numeric `duration` field. -/
def jnumD : Option Json → ℚ
  | some (.num n) => n
  | _ => 0

def kTitle : List Char := "title".data
def kArtistName : List Char := "artistName".data
def kArtist : List Char := "artist".data
def kAlbum : List Char := "album".data
def kDuration : List Char := "duration".data
def kContentDescriptor : List Char := "contentDescriptor".data
def kUrl : List Char := "url".data
def kData : List Char := "data".data
def kSections : List Char := "sections".data
def kItemKind : List Char := "itemKind".data
def kItems : List Char := "items".data
def kTrackLockup : List Char := "trackLockup".data
def kPlaylistUrl : List Char := "playlist_url".data
def kTotalTracks : List Char := "total_tracks".data
def kSongs : List Char := "songs".data

/-- The `Track` dataclass of `get_tracks.py`. -/
structure Track where
  title : List Char
  artist : List Char
  album : List Char := []
  duration : ℚ := 0
  track_number : ℚ := 0
  album_art_url : List Char := []
  url : List Char := []
deriving DecidableEq

/-- Building one `Track` from a `track_data` entry
(`method1_web_scraping`, lines 100-105): `title`, `artistName` and
`duration` are read with `.get` and default to `''` / `0`, while
`track_data["contentDescriptor"]["url"]` is a direct subscript that
raises when either key is absent.  `.get` on a non-dict raises. -/
def buildTrack (j : Json) : Except PyErr Track :=
  match j with
  | .obj o => do
    let cd ← match jlookup o kContentDescriptor with
      | some v => Except.ok v
      | none => Except.error PyErr.keyError
    let u ← jget cd kUrl
    Except.ok { title := jstrD (jlookup o kTitle),
                artist := jstrD (jlookup o kArtistName),
                duration := jnumD (jlookup o kDuration),
                url := jstrD (some u) }
  | _ => .error .attrError

/-- Inner loop over `td['items']`, appending the built tracks to the
page-level accumulator. -/
def lockupTracks : List Json → List Track → Except PyErr (List Track)
  | [], acc => .ok acc
  | x :: xs, acc => do
    let t ← buildTrack x
    lockupTracks xs (acc ++ [t])

/-- Loop over `data['data']['sections']`: sections whose `itemKind` is
`'trackLockup'` contribute their items' tracks; `td['itemKind']` is a
direct subscript. -/
def sectionTracks : List Json → List Track → Except PyErr (List Track)
  | [], acc => .ok acc
  | td :: tds, acc => do
    let k ← jget td kItemKind
    match k with
    | .str s =>
      if s = kTrackLockup then do
        let items ← jget td kItems
        let xs ← jiter items
        let acc2 ← lockupTracks xs acc
        sectionTracks tds acc2
      else sectionTracks tds acc
    | _ => sectionTracks tds acc

/-- The loop over the page's `<script type="application/json">` blocks.
A block is given as `none` when `json.loads` fails on it (that
`json.JSONDecodeError` is caught per block and the loop continues) and
as `some j` when it decodes to `j`; any other error escapes the loop. -/
def scriptsLoop : List (Option Json) → List Track → Except PyErr (List Track)
  | [], acc => .ok acc
  | none :: rest, acc => scriptsLoop rest acc
  | some j :: rest, acc => do
    let d0 ← pyIndex0 j
    let dd ← jget d0 kData
    let sections ← jget dd kSections
    let tds ← jiter sections
    let acc2 ← sectionTracks tds acc
    scriptsLoop rest acc2

/-- `AppleMusicExtractor.method1_web_scraping`: the page is modelled by
the outcome of fetching it — a network/HTTP error, or its list of JSON
script blocks.  The whole body runs inside `try ... except Exception`
which returns `[]`; the meta-tag fallback only prints. -/
def method1_web_scraping (fetched : Except PyErr (List (Option Json))) : List Track :=
  match (do
    let scripts ← fetched
    scriptsLoop scripts []) with
  | .ok ts => ts
  | .error _ => []

/-- Deduplication key: `(track.title.lower(), track.artist.lower())`. -/
def trackKey (t : Track) : List Char × List Char := (pyLower t.title, pyLower t.artist)

/-- The deduplication loop of `extract_tracks` (lines 155-163): `seen`
is the set of keys already emitted. -/
def dedupGo (seen : List (List Char × List Char)) : List Track → List Track
  | [] => []
  | t :: ts =>
    if trackKey t ∈ seen then dedupGo seen ts
    else t :: dedupGo (trackKey t :: seen) ts

/-- Deduplicate a track list, keeping first occurrences in order. -/
def dedupTracks (l : List Track) : List Track := dedupGo [] l

/-- `AppleMusicExtractor.extract_tracks` with the default single
`'scraping'` method: scrape, then deduplicate. -/
def extract_tracks (fetched : Except PyErr (List (Option Json))) : List Track :=
  dedupTracks (method1_web_scraping fetched)

/-- One entry of the `songs` list of the saved `tracks_data` dict. -/
structure Song where
  title : List Char
  artist : List Char
  album : List Char
  duration : ℚ
deriving DecidableEq

def songOfTrack (t : Track) : Song := ⟨t.title, t.artist, t.album, t.duration⟩

/-- `get_tracklist`: extract, and return the `tracks_data` payload
(modelled by its `songs` list — the other two fields are the constant
url and the length) when tracks were found; the no-tracks branch prints
advice and implicitly returns `None`. -/
def get_tracklist (fetched : Except PyErr (List (Option Json))) : Option (List Song) :=
  let tracks := extract_tracks fetched
  if tracks.isEmpty then none else some (tracks.map songOfTrack)

/-- The JSON value `json.dump`ed to the cache file (lines 187-199). -/
def trackToJson (t : Track) : Json :=
  .obj [(kTitle, .str t.title), (kArtist, .str t.artist),
        (kAlbum, .str t.album), (kDuration, .num t.duration)]

/-- The full `tracks_data` dict written for a playlist. -/
def tracks_data_json (playlist_url : List Char) (tracks : List Track) : Json :=
  .obj [(kPlaylistUrl, .str playlist_url),
        (kTotalTracks, .num tracks.length),
        (kSongs, .arr (tracks.map trackToJson))]

/-- Modelled from the spec: re-reading one entry of the `songs` list of
the JSON cache back into a `Track` (the re-reading code is only present
as a comment in the source, line 343-344; the spec asks that the cache
be re-loadable with title, artist, album and duration preserved). -/
def readSong : Json → Option Track
  | .obj o =>
    match jlookup o kTitle, jlookup o kArtist, jlookup o kAlbum, jlookup o kDuration with
    | some (.str t), some (.str a), some (.str al), some (.num d) =>
      some { title := t, artist := a, album := al, duration := d }
    | _, _, _, _ => none
  | _ => none

/-- Modelled from the spec: re-reading the `songs` list of the cache. -/
def readSongs : List Json → Option (List Track)
  | [] => some []
  | s :: rest => do
    let t ← readSong s
    let ts ← readSongs rest
    some (t :: ts)

/-- Modelled from the spec: re-reading the whole JSON cache file back
into the sequence of track records it was written from. -/
def readTracksData (j : Json) : Option (List Track) :=
  match j with
  | .obj o =>
    match jlookup o kSongs with
    | some (.arr items) => readSongs items
    | _ => none
  | _ => none

def kwLParen : List Char := "(".data
def kwRParen : List Char := ")".data
def kwLBrack : List Char := "[".data
def kwRBrack : List Char := "]".data
def kwHd : List Char := "hd".data
def kwOriginal : List Char := "original".data
def kwLyrics : List Char := "lyrics".data
def kwVideo : List Char := "video".data
def kwOfficial : List Char := "official".data

/-- The strip-keyword list of `calculate_confidence` (line 280) — note
that `'lyrics'` appears twice, exactly as in the source. -/
def keywords : List (List Char) :=
  [kwLParen, kwRParen, kwLBrack, kwRBrack, kwHd, kwOriginal, kwLyrics,
   kwVideo, kwLyrics, kwOfficial]

/-- Candidate-title normalization performed by `calculate_confidence`
(lines 278-283): lowercase, delete each keyword occurrence in list
order, strip surrounding whitespace. -/
def normalize_title (s : List Char) : List Char :=
  pyStrip (keywords.foldl (fun acc w => pyReplace w acc) (pyLower s))

/-- A YouTube search result dict, restricted to the keys the script
reads.  `title` and `artists` model `.get` keys that may be absent
(`artists` entries are the `'name'` fields of the artist dicts);
`duration` is `none` when the `'duration'` key is absent, which makes
`result['duration']` raise. -/
structure SearchResult where
  title : Option (List Char)
  artists : Option (List (List Char))
  duration : Option ℚ
  id : List Char
deriving DecidableEq

/-- `YTD.calculate_confidence` (lines 276-303).  `simfn` stands for the
external `fuzz.ratio` (a 0-100 similarity); `original` is the mutated
track dict with `title`, `artist` and `duration` keys.  The joined
`result_artist` string of line 286 is used only for nothing (dead
store) and is omitted. -/
def calculate_confidence (simfn : List Char → List Char → ℚ) (original : Song)
    (result : SearchResult) : Except PyErr ℚ :=
  let result_title := normalize_title (result.title.getD [])
  let result_artists := (result.artists.getD []).map pyLower
  let original_title := pyLower original.title
  let original_artist := pyLower original.artist
  let title_score := simfn original_title result_title / 100
  let artist_scores := result_artists.map fun a => simfn original_artist a
  let artist_score : ℚ :=
    match artist_scores with
    | [] => 0
    | x :: xs => xs.foldl max x / 100
  match result.duration with
  | none => .error .keyError
  | some d =>
    let dur_diff := |original.duration - d|
    .ok (title_score * 0.4 + artist_score * 0.6 - dur_diff * 0.0002)

/-- The candidate-selection loop of `get_tracks_on_yt` (lines 312-320):
running best confidence `bc` starts at the threshold, the best match
`bm` at `None`; a candidate replaces the running best exactly when its
confidence is strictly greater.  A confidence computation that raises
propagates out of the loop. -/
def selectLoop (conf : SearchResult → Except PyErr ℚ) :
    List SearchResult → ℚ → Option SearchResult → Except PyErr (ℚ × Option SearchResult)
  | [], bc, bm => .ok (bc, bm)
  | r :: rs, bc, bm =>
    match conf r with
    | .error e => .error e
    | .ok c => if bc < c then selectLoop conf rs c (some r) else selectLoop conf rs bc bm

/-- The spec's `selectBest` contract, read off the loop: `none` is
`NoMatch`, `some (candidate, confidence)` is `Matched`. -/
def selectBest (conf : SearchResult → Except PyErr ℚ) (cands : List SearchResult)
    (thresh : ℚ) : Except PyErr (Option (SearchResult × ℚ)) :=
  match selectLoop conf cands thresh none with
  | .error e => .error e
  | .ok (bc, bm) => .ok (bm.map fun r => (r, bc))

/-- The default selection threshold of `get_tracks_on_yt`. -/
def defaultThresh : ℚ := 0.2

/-- The YouTube watch URL built for a matched candidate (line 327). -/
def video_url (i : List Char) : List Char := "https://youtube.com/watch?v=".data ++ i

/-- One iteration of the track loop of `get_tracks_on_yt` (lines
308-329): the track dict is mutated in place
(`track['duration'] = track['duration']/1000.0`), the mutated track is
searched and scored, and the best match — when there is one — is
downloaded.  Returns the track dict as it stands after the iteration,
and (unless scoring raised) the decision together with the list of
URLs passed to the downloader. -/
def processTrack (simfn : List Char → List Char → ℚ) (search : Song → List SearchResult)
    (thresh : ℚ) (track : Song) :
    Song × Except PyErr (Option (SearchResult × ℚ) × List (List Char)) :=
  let track2 := { track with duration := track.duration / 1000 }
  let res := search track2
  ( track2,
    match selectBest (calculate_confidence simfn track2) res thresh with
    | .error e => .error e
    | .ok bm =>
      .ok (bm, match bm with
        | some rq => [video_url rq.1.id]
        | none => []) )

/-- The `__main__` loop over playlist fetch outcomes (lines 339-345):
`tracks` is rebound on every iteration, so only the last playlist's
value survives; after the loop `get_tracks_on_yt(tracks['songs'])`
subscripts it.  If the list were empty `tracks` would be unbound
(`NameError`); if the last `get_tracklist` found no tracks it returned
`None` and the subscript raises `TypeError`. -/
def mainGo : Option (Option (List Song)) → List (Except PyErr (List (Option Json))) →
    Option (Option (List Song))
  | last, [] => last
  | _, f :: rest => mainGo (some (get_tracklist f)) rest

/-- The whole `__main__` flow, returning the `songs` list handed to the
downloading stage, or the exception the process dies with. -/
def mainModel (playlists : List (Except PyErr (List (Option Json)))) :
    Except PyErr (List Song) :=
  match mainGo none playlists with
  | none => .error .nameError
  | some none => .error .typeError
  | some (some songs) => .ok songs

/-- The normalization as the claim words it: lowercase, remove the nine
literal substrings (with `'lyrics'` applied once only), then trim. -/
def normalizeOnce (s : List Char) : List Char :=
  pyStrip ([kwLParen, kwRParen, kwLBrack, kwRBrack, kwHd, kwOriginal, kwLyrics,
    kwVideo, kwOfficial].foldl (fun acc w => pyReplace w acc) (pyLower s))

/-- Artist similarity as the claim words it: the maximum over all
candidate artist names of the similarity ratio divided by 100, and 0
when the candidate has no artist names. -/
def artistSimSpec (simfn : List Char → List Char → ℚ) (original : Song)
    (result : SearchResult) : ℚ :=
  match ((result.artists.getD []).map pyLower).map
      (fun a => simfn (pyLower original.artist) a / 100) with
  | [] => 0
  | x :: xs => xs.foldl max x

/-- Title similarity of the score formula: ratio between the lowercased
source title and the normalized candidate title, divided by 100. -/
def titleSimSpec (simfn : List Char → List Char → ℚ) (original : Song)
    (result : SearchResult) : ℚ :=
  simfn (pyLower original.title) (normalize_title (result.title.getD [])) / 100

/-- The intermediate string of the normalization after the first eight
keyword removals (everything up to and including `'video'`), i.e. the
string the duplicated `'lyrics'` removal is applied to. -/
def midNormalize (s : List Char) : List Char :=
  [kwLParen, kwRParen, kwLBrack, kwRBrack, kwHd, kwOriginal, kwLyrics,
   kwVideo].foldl (fun acc w => pyReplace w acc) (pyLower s)

/-- An abstract similarity valuation used for concrete witnesses. -/
def sfW : List Char → List Char → ℚ := fun _ _ => 80

/-- A concrete source track (as the mutated song dict) for witnesses. -/
def trkW : Song := ⟨"blinding lights".data, "the weeknd".data, [], 200⟩

/-- A concrete search-result candidate for witnesses. -/
def candW : SearchResult :=
  ⟨some "The Weeknd - Blinding Lights (Official Video)".data,
   some ["The Weeknd".data], some 203, "abc".data⟩

/-- A concrete confidence valuation for selection witnesses. -/
def cW : SearchResult → ℚ := fun r => r.duration.getD 0

/-- First concrete candidate for selection witnesses. -/
def wA : SearchResult := ⟨none, none, some 1, "a".data⟩

/-- Second concrete candidate, tying with `wA`, for selection witnesses. -/
def wB : SearchResult := ⟨none, none, some 1, "b".data⟩

/-- Concrete tracks for deduplication witnesses: `tU1` and `tU2` share a
case-insensitive (title, artist) key, `tU3` does not. -/
def tU1 : Track := { title := "Song A".data, artist := "Artist".data }

def tU2 : Track := { title := "song a".data, artist := "ARTIST".data }

def tU3 : Track := { title := "Song B".data, artist := "Artist".data }

/-- A complete `track_data` entry as the structured data carries it. -/
def trackEntryComplete : Json :=
  .obj [(kTitle, .str "Song A".data), (kArtistName, .str "Artist A".data),
        (kDuration, .num 200000),
        (kContentDescriptor, .obj [(kUrl, .str "https://music.example/a".data)])]

/-- The `Track` that `trackEntryComplete` extracts to. -/
def goodTrack : Track :=
  { title := "Song A".data, artist := "Artist A".data, duration := 200000,
    url := "https://music.example/a".data }

/-- A `track_data` entry whose `contentDescriptor` field is absent. -/
def trackEntryNoDescriptor : Json :=
  .obj [(kTitle, .str "Song B".data), (kArtistName, .str "Artist B".data),
        (kDuration, .num 1000)]

/-- A `trackLockup` section carrying the given items. -/
def sectionOf (items : List Json) : Json :=
  .obj [(kItemKind, .str kTrackLockup), (kItems, .arr items)]

/-- A decoded script block carrying the given sections. -/
def blockOf (tds : List Json) : Json :=
  .arr [.obj [(kData, .obj [(kSections, .arr tds)])]]

def blockComplete : Json := blockOf [sectionOf [trackEntryComplete]]

def blockNoDescriptor : Json := blockOf [sectionOf [trackEntryNoDescriptor]]

/-- A concrete song dict (duration in milliseconds, as read from the
cache) for the mutation counterexample. -/
def songW : Song := ⟨"Song A".data, "Artist A".data, [], 200000⟩

@[simp]
theorem except_bind_ok {ε α β : Type} (a : α) (f : α → Except ε β) :
    (Except.ok a >>= f) = f a := rfl

@[simp]
theorem except_bind_error {ε α β : Type} (e : ε) (f : α → Except ε β) :
    ((Except.error e : Except ε α) >>= f) = Except.error e := rfl

/-- Dividing a running maximum by 100 commutes with maximizing the
divided values. -/
theorem foldl_max_div (xs : List ℚ) (x : ℚ) :
    xs.foldl max x / 100 = (xs.map fun y => y / 100).foldl max (x / 100) := by
  induction xs generalizing x with
  | nil => rfl
  | cons y ys ih =>
    simp only [List.foldl_cons, List.map_cons]
    rw [ih, max_div_div_right (by norm_num : (0:ℚ) ≤ 100) x y]

/-- The code's `max(artist_scores)/100 if artist_scores else 0` equals
the claim's maximum of the per-name ratios each divided by 100. -/
theorem artist_score_eq (simfn : List Char → List Char → ℚ) (original : Song)
    (result : SearchResult) :
    (match ((result.artists.getD []).map pyLower).map
        (fun a => simfn (pyLower original.artist) a) with
      | [] => (0:ℚ)
      | x :: xs => xs.foldl max x / 100) = artistSimSpec simfn original result := by
  unfold artistSimSpec
  cases h : (result.artists.getD []).map pyLower with
  | nil => simp [h]
  | cons n ns =>
    simp only [h, List.map_cons]
    rw [foldl_max_div, List.map_map]
    rfl

/-- When the candidate has a duration, the confidence is exactly the
weighted formula over the spec-side similarities. -/
theorem calculate_confidence_some (simfn : List Char → List Char → ℚ) (original : Song)
    (result : SearchResult) (d : ℚ) (hd : result.duration = some d) :
    calculate_confidence simfn original result =
      .ok (0.4 * titleSimSpec simfn original result +
           0.6 * artistSimSpec simfn original result -
           0.0002 * |original.duration - d|) := by
  simp only [calculate_confidence, hd]
  rw [Except.ok.injEq, ← artist_score_eq simfn original result]
  unfold titleSimSpec
  ring

/-- C1: for every track and candidate carrying a duration, the score is
`0.4 * titleSimilarity + 0.6 * artistSimilarity - 0.0002 * durationGap`,
where artist similarity is the maximum over all candidate artist names
of the similarity ratio divided by 100 and is 0 when the candidate has
no artist names; the result is not clamped — it can go negative and,
for an unbounded ratio, exceed 1. -/
theorem c1_score_formula (simfn : List Char → List Char → ℚ) (original : Song)
    (result : SearchResult) (d : ℚ) (hd : result.duration = some d) :
    calculate_confidence simfn original result =
      .ok (0.4 * titleSimSpec simfn original result +
           0.6 * artistSimSpec simfn original result -
           0.0002 * |original.duration - d|) ∧
    (result.artists.getD [] = [] → artistSimSpec simfn original result = 0) ∧
    (∃ o r v, calculate_confidence (fun _ _ => 0) o r = .ok v ∧ v < 0) ∧
    (∃ f o r v, calculate_confidence f o r = .ok v ∧ 1 < v) := by
  refine ⟨calculate_confidence_some simfn original result d hd, ?_, ?_, ?_⟩
  · intro h
    simp [artistSimSpec, h]
  · refine ⟨⟨[], [], [], 0⟩, ⟨none, none, some 10000, []⟩, -2, ?_, by norm_num⟩
    simp [calculate_confidence]
    norm_num
  · refine ⟨fun _ _ => 1000, ⟨[], [], [], 0⟩, ⟨none, none, some 0, []⟩, 4, ?_, by norm_num⟩
    simp [calculate_confidence]
    norm_num

/-- C1 witness: the formula instantiated at a concrete track, candidate
and similarity valuation. -/
theorem c1_score_formula_witness :
    calculate_confidence sfW trkW candW =
      .ok (0.4 * titleSimSpec sfW trkW candW + 0.6 * artistSimSpec sfW trkW candW -
        0.0002 * |trkW.duration - 203|) :=
  (c1_score_formula sfW trkW candW 203 rfl).1

/-- C10: the score is total only when the candidate carries a numeric
duration: a missing title or missing artist list is tolerated (empty
defaults, artist similarity 0), but a candidate without a duration
makes `calculate_confidence` raise instead of returning a score. -/
theorem c10_duration_required (simfn : List Char → List Char → ℚ) (original : Song)
    (result : SearchResult) :
    (result.duration = none → calculate_confidence simfn original result = .error .keyError) ∧
    (∀ d, result.duration = some d → ∃ q, calculate_confidence simfn original result = .ok q) ∧
    (∀ d, result.duration = some d → result.title = none → result.artists = none →
      calculate_confidence simfn original result =
        .ok (0.4 * (simfn (pyLower original.title) (normalize_title []) / 100)
             - 0.0002 * |original.duration - d|)) := by
  refine ⟨fun h => by simp [calculate_confidence, h], fun d hd => ?_, fun d hd ht ha => ?_⟩
  · exact ⟨_, calculate_confidence_some simfn original result d hd⟩
  · simp only [calculate_confidence, hd, ht, ha, Option.getD_none, List.map_nil]
    rw [Except.ok.injEq]
    ring

/-- C10 witness: a candidate without a duration raises; one with a
duration but neither title nor artists still scores. -/
theorem c10_duration_required_witness :
    calculate_confidence sfW trkW ⟨none, none, none, "x".data⟩ = .error .keyError ∧
    ∃ q, calculate_confidence sfW trkW ⟨none, none, some 100, "x".data⟩ = .ok q :=
  ⟨(c10_duration_required sfW trkW ⟨none, none, none, "x".data⟩).1 rfl,
   (c10_duration_required sfW trkW ⟨none, none, some 100, "x".data⟩).2.1 100 rfl⟩

theorem countc_append (c : Char) (a b : List Char) :
    countc c (a ++ b) = countc c a + countc c b := by
  induction a with
  | nil => simp [countc]
  | cons x xs ih => simp [countc, ih, Nat.add_assoc]

theorem countc_reverse (c : Char) (s : List Char) :
    countc c s.reverse = countc c s := by
  induction s with
  | nil => rfl
  | cons x xs ih =>
    rw [List.reverse_cons, countc_append, ih]
    simp only [countc, Nat.add_zero]
    exact Nat.add_comm _ _

/-- A character absent from a string occurs zero times in it. -/
theorem countc_eq_zero (c : Char) (l : List Char) (h : c ∉ l) : countc c l = 0 := by
  induction l with
  | nil => rfl
  | cons x xs ih =>
    have hx : x ≠ c := fun he => h (by rw [← he]; exact List.mem_cons_self _ _)
    have hxs : c ∉ xs := fun hm => h (List.mem_cons_of_mem _ hm)
    simp [countc, hx, ih hxs]

/-- A character present in a string occurs at least once in it. -/
theorem countc_pos (c : Char) (l : List Char) (h : c ∈ l) : 0 < countc c l := by
  induction l with
  | nil => cases h
  | cons x xs ih =>
    rcases List.mem_cons.mp h with rfl | hm
    · simp [countc]
    · have := ih hm
      simp only [countc]
      omega

/-- Stripping leading whitespace does not change the count of a
non-whitespace character. -/
theorem countc_dropWhile_pyIsSpace (c : Char) (hc : pyIsSpace c = false) (s : List Char) :
    countc c (s.dropWhile pyIsSpace) = countc c s := by
  induction s with
  | nil => rfl
  | cons x xs ih =>
    rw [List.dropWhile_cons]
    by_cases h : pyIsSpace x = true
    · have hxc : x ≠ c := by
        intro he
        rw [he, hc] at h
        cases h
      rw [if_pos h, ih]
      simp [countc, hxc]
    · rw [if_neg h]

/-- Stripping surrounding whitespace does not change the count of a
non-whitespace character. -/
theorem countc_pyStrip (c : Char) (hc : pyIsSpace c = false) (s : List Char) :
    countc c (pyStrip s) = countc c s := by
  unfold pyStrip
  rw [countc_reverse, countc_dropWhile_pyIsSpace c hc, countc_reverse,
    countc_dropWhile_pyIsSpace c hc]

/-- A successful prefix test splits the scanned string into the pattern
followed by the rest, and the rest is the `drop`. -/
theorem isPrefixOf_split (p : Char) (ps : List Char) (x : Char) (xs : List Char)
    (h : (p :: ps).isPrefixOf (x :: xs) = true) :
    x = p ∧ ∃ t, xs = ps ++ t ∧ xs.drop ps.length = t := by
  rcases List.isPrefixOf_iff_prefix.mp h with ⟨t, ht⟩
  injection ht with h1 h2
  refine ⟨h1.symm, t, h2.symm, ?_⟩
  rw [← h2]
  exact List.drop_left ps t

/-- Dropping a prefix cannot increase a character count. -/
theorem countc_drop_le (c : Char) (n : Nat) (xs : List Char) :
    countc c (xs.drop n) ≤ countc c xs := by
  conv_rhs => rw [← List.take_append_drop n xs]
  rw [countc_append]
  exact Nat.le_add_left _ _

/-- Deleting occurrences of a pattern never increases a character
count. -/
theorem countc_pyReplaceGo_le (p : Char) (ps : List Char) (c : Char) :
    ∀ fuel s, countc c (pyReplaceGo p ps fuel s) ≤ countc c s := by
  intro fuel
  induction fuel with
  | zero =>
    intro s
    rcases s with _ | ⟨x, xs⟩
    · exact le_rfl
    · exact le_rfl
  | succ n ih =>
    intro s
    rcases s with _ | ⟨x, xs⟩
    · exact le_rfl
    · simp only [pyReplaceGo]
      by_cases h : (p :: ps).isPrefixOf (x :: xs) = true
      · rw [if_pos h]
        refine le_trans (ih _) (le_trans (countc_drop_le c ps.length xs) ?_)
        simp only [countc]
        exact Nat.le_add_left _ _
      · rw [if_neg h]
        simp only [countc]
        exact Nat.add_le_add_left (ih xs) _

/-- Deleting occurrences of a pattern that does not contain `c` leaves
the count of `c` unchanged. -/
theorem countc_pyReplaceGo_eq (p : Char) (ps : List Char) (c : Char) (hc : c ∉ p :: ps) :
    ∀ fuel s, s.length ≤ fuel → countc c (pyReplaceGo p ps fuel s) = countc c s := by
  intro fuel
  induction fuel with
  | zero =>
    intro s hs
    rcases s with _ | ⟨x, xs⟩
    · rfl
    · simp at hs
  | succ n ih =>
    intro s hs
    rcases s with _ | ⟨x, xs⟩
    · rfl
    · simp only [pyReplaceGo]
      by_cases h : (p :: ps).isPrefixOf (x :: xs) = true
      · obtain ⟨hx, t, hxs, hdrop⟩ := isPrefixOf_split p ps x xs h
        rw [if_pos h, hdrop]
        have hlen : t.length ≤ n := by
          have hxl := congrArg List.length hxs
          simp only [List.length_append] at hxl
          simp only [List.length_cons] at hs
          omega
        rw [ih t hlen]
        have h0 : countc c (p :: ps) = 0 := countc_eq_zero c _ hc
        have hsum : countc c (x :: xs) = countc c (p :: ps) + countc c t := by
          rw [hxs, hx]
          simp [countc, countc_append, Nat.add_assoc]
        omega
      · rw [if_neg h]
        simp only [countc]
        have hlen : xs.length ≤ n := by
          simp only [List.length_cons] at hs
          omega
        rw [ih xs hlen]

/-- Deleting the occurrences of a pattern that contains `c` from a
string in which the pattern occurs strictly decreases the count of
`c`. -/
theorem countc_pyReplaceGo_lt (p : Char) (ps : List Char) (c : Char) (hc : c ∈ p :: ps) :
    ∀ fuel s, s.length ≤ fuel → containsSub (p :: ps) s = true →
      countc c (pyReplaceGo p ps fuel s) < countc c s := by
  intro fuel
  induction fuel with
  | zero =>
    intro s hs hcs
    rcases s with _ | ⟨x, xs⟩
    · exact absurd hcs (by simp [containsSub])
    · simp at hs
  | succ n ih =>
    intro s hs hcs
    rcases s with _ | ⟨x, xs⟩
    · exact absurd hcs (by simp [containsSub])
    · simp only [pyReplaceGo]
      by_cases h : (p :: ps).isPrefixOf (x :: xs) = true
      · obtain ⟨hx, t, hxs, hdrop⟩ := isPrefixOf_split p ps x xs h
        rw [if_pos h, hdrop]
        have hle : countc c (pyReplaceGo p ps n t) ≤ countc c t :=
          countc_pyReplaceGo_le p ps c n t
        have hpos : 0 < countc c (p :: ps) := countc_pos c _ hc
        have hsum : countc c (x :: xs) = countc c (p :: ps) + countc c t := by
          rw [hxs, hx]
          simp [countc, countc_append, Nat.add_assoc]
        omega
      · have hb : (p :: ps).isPrefixOf (x :: xs) = false := Bool.eq_false_iff.mpr h
        have hcs' : containsSub (p :: ps) xs = true := by
          simp only [containsSub, hb, Bool.false_or] at hcs
          exact hcs
        rw [if_neg h]
        simp only [countc]
        have hlen : xs.length ≤ n := by
          simp only [List.length_cons] at hs
          omega
        exact Nat.add_lt_add_left (ih xs hlen hcs') _

/-- `pyReplace` with a pattern not containing `c` preserves the count
of `c`. -/
theorem countc_pyReplace_eq (pat s : List Char) (c : Char) (hc : c ∉ pat) :
    countc c (pyReplace pat s) = countc c s := by
  rcases pat with _ | ⟨p, ps⟩
  · rfl
  · exact countc_pyReplaceGo_eq p ps c hc s.length s le_rfl

/-- `pyReplace` with an occurring pattern containing `c` strictly
decreases the count of `c`. -/
theorem countc_pyReplace_lt (pat s : List Char) (c : Char) (hc : c ∈ pat)
    (h : containsSub pat s = true) :
    countc c (pyReplace pat s) < countc c s := by
  rcases pat with _ | ⟨p, ps⟩
  · cases hc
  · exact countc_pyReplaceGo_lt p ps c hc s.length s le_rfl h

/-- Deleting a pattern that does not occur leaves the string unchanged
(worker version, with enough fuel). -/
theorem pyReplaceGo_not_contains (p : Char) (ps : List Char) :
    ∀ (fuel : Nat) (s : List Char), s.length ≤ fuel →
      containsSub (p :: ps) s = false → pyReplaceGo p ps fuel s = s := by
  intro fuel
  induction fuel with
  | zero =>
    intro s hs _
    rcases s with _ | ⟨c, cs⟩
    · rfl
    · simp at hs
  | succ n ih =>
    intro s hs h
    rcases s with _ | ⟨c, cs⟩
    · rfl
    · simp only [containsSub, Bool.or_eq_false_iff] at h
      simp only [pyReplaceGo, h.1]
      rw [if_neg Bool.false_ne_true]
      rw [ih cs (by simpa using Nat.le_of_succ_le_succ hs) h.2]

/-- Deleting a pattern that does not occur leaves the string unchanged. -/
theorem pyReplace_not_contains (pat s : List Char) (h : containsSub pat s = false) :
    pyReplace pat s = s := by
  rcases pat with _ | ⟨p, ps⟩
  · rfl
  · exact pyReplaceGo_not_contains p ps s.length s le_rfl h

/-- C3 counterexample: the duplicated `'lyrics'` removal is NOT
idempotent.  On the title `"lylyricsrics"` the first removal deletes
the inner occurrence and thereby creates a fresh `"lyrics"`, which only
the duplicated second removal deletes: the code's normalization yields
the empty string while the nine-keyword normalization of the claim
yields `"lyrics"`. -/
theorem c3_lyrics_not_idempotent :
    normalize_title "lylyricsrics".data = [] ∧
    normalizeOnce "lylyricsrics".data = "lyrics".data ∧
    normalize_title "lylyricsrics".data ≠ normalizeOnce "lylyricsrics".data :=
  ⟨by decide, by decide, by decide⟩

/-- C3 (amended): the normalization lowercases, removes the keyword
occurrences in the code's list order — with `'lyrics'` applied twice —
and trims; the second `'lyrics'` pass agrees with a single pass exactly
when the earlier removals have not created a new `'lyrics'` occurrence
in the intermediate string.  The forward direction holds because each
`'lyrics'` occurrence deleted by the second pass removes a `'y'`, which
neither the `'official'` removal nor the trim can restore. -/
theorem c3_normalization_amended (s : List Char) :
    normalize_title s = normalizeOnce s ↔
      containsSub kwLyrics (midNormalize s) = false := by
  constructor
  · intro he
    by_contra hocc
    have hocc' : containsSub kwLyrics (midNormalize s) = true := by
      cases hb : containsSub kwLyrics (midNormalize s)
      · exact absurd hb hocc
      · rfl
    have hyL : ('y' : Char) ∈ kwLyrics := by decide
    have hyO : ('y' : Char) ∉ kwOfficial := by decide
    have hyS : pyIsSpace 'y' = false := by decide
    have hrepr1 : normalize_title s =
        pyStrip (pyReplace kwOfficial (pyReplace kwLyrics (midNormalize s))) := by
      unfold normalize_title keywords midNormalize
      simp only [List.foldl_cons, List.foldl_nil]
    have hrepr2 : normalizeOnce s =
        pyStrip (pyReplace kwOfficial (midNormalize s)) := by
      unfold normalizeOnce midNormalize
      simp only [List.foldl_cons, List.foldl_nil]
    have hlt : countc 'y' (normalize_title s) < countc 'y' (normalizeOnce s) := by
      rw [hrepr1, hrepr2, countc_pyStrip 'y' hyS, countc_pyStrip 'y' hyS,
        countc_pyReplace_eq kwOfficial _ 'y' hyO, countc_pyReplace_eq kwOfficial _ 'y' hyO]
      exact countc_pyReplace_lt kwLyrics (midNormalize s) 'y' hyL hocc'
    rw [he] at hlt
    exact lt_irrefl _ hlt
  · intro h
    unfold normalize_title normalizeOnce keywords
    unfold midNormalize at h
    simp only [List.foldl_cons, List.foldl_nil] at h ⊢
    rw [pyReplace_not_contains kwLyrics _ h]

/-- C3 witness: a title on which no new `'lyrics'` occurrence is
created, so the two normalizations agree, and one on which an
occurrence is created, so they must differ. -/
theorem c3_normalization_amended_witness :
    normalize_title "abc".data = normalizeOnce "abc".data ∧
    containsSub kwLyrics (midNormalize "lylyricsrics".data) = true ∧
    normalize_title "lylyricsrics".data ≠ normalizeOnce "lylyricsrics".data :=
  ⟨(c3_normalization_amended "abc".data).mpr (by decide), by decide,
   fun he => absurd ((c3_normalization_amended "lylyricsrics".data).mp he) (by decide)⟩

/-- Once a best match is held, the loop always ends holding one. -/
theorem selectLoop_ok_some (confP : SearchResult → ℚ) (rs : List SearchResult) :
    ∀ (bc : ℚ) (c0 : SearchResult), ∃ bc' c',
      selectLoop (fun r => .ok (confP r)) rs bc (some c0) = .ok (bc', some c') := by
  induction rs with
  | nil => exact fun bc c0 => ⟨bc, c0, rfl⟩
  | cons r rs ih =>
    intro bc c0
    simp only [selectLoop]
    by_cases h : bc < confP r
    · rw [if_pos h]
      exact ih _ _
    · rw [if_neg h]
      exact ih _ _

/-- If no candidate beats the running best, the loop keeps its state. -/
theorem selectLoop_all_le (confP : SearchResult → ℚ) (rs : List SearchResult) :
    ∀ bc, (∀ r ∈ rs, confP r ≤ bc) →
      selectLoop (fun r => .ok (confP r)) rs bc none = .ok (bc, none) := by
  induction rs with
  | nil => intro bc _; rfl
  | cons r rs ih =>
    intro bc h
    simp only [selectLoop]
    rw [if_neg (not_lt.mpr (h r (List.mem_cons_self r rs)))]
    exact ih bc fun x hx => h x (List.mem_cons_of_mem r hx)

/-- If some candidate beats the running best, a match is returned. -/
theorem selectLoop_exists_gt (confP : SearchResult → ℚ) (rs : List SearchResult) :
    ∀ bc, (∃ r ∈ rs, bc < confP r) →
      ∃ bc' c', selectLoop (fun r => .ok (confP r)) rs bc none = .ok (bc', some c') := by
  induction rs with
  | nil =>
    rintro bc ⟨r, hr, _⟩
    cases hr
  | cons r rs ih =>
    rintro bc ⟨x, hx, hlt⟩
    simp only [selectLoop]
    by_cases h : bc < confP r
    · rw [if_pos h]
      exact selectLoop_ok_some confP rs (confP r) r
    · rw [if_neg h]
      rcases List.mem_cons.mp hx with rfl | hx'
      · exact absurd hlt h
      · exact ih bc ⟨x, hx', hlt⟩

/-- The final running best is the maximum of the start value and all
candidate confidences. -/
theorem selectLoop_fst (confP : SearchResult → ℚ) (rs : List SearchResult) :
    ∀ bc bm bc' bm', selectLoop (fun r => .ok (confP r)) rs bc bm = .ok (bc', bm') →
      bc' = rs.foldl (fun b r => max b (confP r)) bc := by
  induction rs with
  | nil =>
    intro bc bm bc' bm' h
    simp only [selectLoop, Except.ok.injEq, Prod.mk.injEq] at h
    simp only [List.foldl_nil]
    exact h.1.symm
  | cons r rs ih =>
    intro bc bm bc' bm' h
    simp only [selectLoop] at h
    simp only [List.foldl_cons]
    by_cases hc : bc < confP r
    · rw [if_pos hc] at h
      rw [max_eq_right (le_of_lt hc)]
      exact ih _ _ _ _ h
    · rw [if_neg hc] at h
      rw [max_eq_left (not_lt.mp hc)]
      exact ih _ _ _ _ h

/-- The start value is a lower bound of the running maximum. -/
theorem le_foldl_max (confP : SearchResult → ℚ) (rs : List SearchResult) :
    ∀ bc, bc ≤ rs.foldl (fun b r => max b (confP r)) bc := by
  induction rs with
  | nil => intro bc; simp
  | cons r rs ih =>
    intro bc
    simp only [List.foldl_cons]
    exact le_trans (le_max_left bc (confP r)) (ih (max bc (confP r)))

/-- Every candidate's confidence is bounded by the running maximum. -/
theorem mem_le_foldl_max (confP : SearchResult → ℚ) (rs : List SearchResult) :
    ∀ bc x, x ∈ rs → confP x ≤ rs.foldl (fun b r => max b (confP r)) bc := by
  induction rs with
  | nil =>
    intro bc x hx
    cases hx
  | cons r rs ih =>
    intro bc x hx
    simp only [List.foldl_cons]
    rcases List.mem_cons.mp hx with rfl | hx'
    · exact le_trans (le_max_right bc (confP x)) (le_foldl_max confP rs _)
    · exact ih _ x hx'

/-- When the running best equals the held match's confidence (as it
always does in the loop), the returned best confidence is the returned
match's confidence. -/
theorem selectLoop_fst_of_some (confP : SearchResult → ℚ) (rs : List SearchResult) :
    ∀ bc bm bc' c', (∀ c0, bm = some c0 → bc = confP c0) →
      selectLoop (fun r => .ok (confP r)) rs bc bm = .ok (bc', some c') → bc' = confP c' := by
  induction rs with
  | nil =>
    intro bc bm bc' c' hbm h
    simp only [selectLoop, Except.ok.injEq, Prod.mk.injEq] at h
    rw [← h.1]
    exact hbm c' h.2
  | cons r rs ih =>
    intro bc bm bc' c' hbm h
    simp only [selectLoop] at h
    by_cases hc : bc < confP r
    · rw [if_pos hc] at h
      exact ih _ _ _ _ (fun c0 e => by cases e; rfl) h
    · rw [if_neg hc] at h
      exact ih _ _ _ _ hbm h

/-- Starting from a held match scored at the running best, the winner is
either that match or a strictly better, earliest-such candidate. -/
theorem selectLoop_earliest_some (confP : SearchResult → ℚ) (rs : List SearchResult) :
    ∀ (c0 : SearchResult) bc' c',
      selectLoop (fun r => .ok (confP r)) rs (confP c0) (some c0) = .ok (bc', some c') →
      c' = c0 ∨ ∃ i, ∃ hi : i < rs.length, rs.get ⟨i, hi⟩ = c' ∧ confP c0 < confP c' ∧
        ∀ j, ∀ hj : j < rs.length, j < i → confP (rs.get ⟨j, hj⟩) < confP c' := by
  induction rs with
  | nil =>
    intro c0 bc' c' h
    simp only [selectLoop, Except.ok.injEq, Prod.mk.injEq] at h
    left
    exact (Option.some.inj h.2).symm
  | cons r rs ih =>
    intro c0 bc' c' h
    simp only [selectLoop] at h
    by_cases hc : confP c0 < confP r
    · rw [if_pos hc] at h
      rcases ih r bc' c' h with rfl | ⟨i, hi, hget, hlt, hpre⟩
      · right
        exact ⟨0, Nat.succ_pos _, rfl, hc, fun j hj hj0 => absurd hj0 (Nat.not_lt_zero j)⟩
      · right
        refine ⟨i + 1, Nat.succ_lt_succ hi, hget, lt_trans hc hlt, ?_⟩
        intro j hj hjlt
        cases j with
        | zero => exact hlt
        | succ k => exact hpre k (Nat.lt_of_succ_lt_succ hj) (Nat.lt_of_succ_lt_succ hjlt)
    · rw [if_neg hc] at h
      rcases ih c0 bc' c' h with rfl | ⟨i, hi, hget, hlt, hpre⟩
      · left; rfl
      · right
        refine ⟨i + 1, Nat.succ_lt_succ hi, hget, hlt, ?_⟩
        intro j hj hjlt
        cases j with
        | zero => exact lt_of_le_of_lt (not_lt.mp hc) hlt
        | succ k => exact hpre k (Nat.lt_of_succ_lt_succ hj) (Nat.lt_of_succ_lt_succ hjlt)

/-- Starting with no match, a returned winner is the earliest candidate
attaining the maximal confidence, and it strictly beats the start. -/
theorem selectLoop_earliest_none (confP : SearchResult → ℚ) (rs : List SearchResult) :
    ∀ bc bc' c', selectLoop (fun r => .ok (confP r)) rs bc none = .ok (bc', some c') →
      ∃ i, ∃ hi : i < rs.length, rs.get ⟨i, hi⟩ = c' ∧ bc < confP c' ∧
        ∀ j, ∀ hj : j < rs.length, j < i → confP (rs.get ⟨j, hj⟩) < confP c' := by
  induction rs with
  | nil =>
    intro bc bc' c' h
    simp only [selectLoop, Except.ok.injEq, Prod.mk.injEq] at h
    exact absurd h.2 (by simp)
  | cons r rs ih =>
    intro bc bc' c' h
    simp only [selectLoop] at h
    by_cases hc : bc < confP r
    · rw [if_pos hc] at h
      rcases selectLoop_earliest_some confP rs r bc' c' h with rfl | ⟨i, hi, hget, hlt, hpre⟩
      · exact ⟨0, Nat.succ_pos _, rfl, hc, fun j hj hj0 => absurd hj0 (Nat.not_lt_zero j)⟩
      · refine ⟨i + 1, Nat.succ_lt_succ hi, hget, lt_trans hc hlt, ?_⟩
        intro j hj hjlt
        cases j with
        | zero => exact hlt
        | succ k => exact hpre k (Nat.lt_of_succ_lt_succ hj) (Nat.lt_of_succ_lt_succ hjlt)
    · rw [if_neg hc] at h
      rcases ih bc bc' c' h with ⟨i, hi, hget, hlt, hpre⟩
      refine ⟨i + 1, Nat.succ_lt_succ hi, hget, hlt, ?_⟩
      intro j hj hjlt
      cases j with
      | zero => exact lt_of_le_of_lt (not_lt.mp hc) hlt
      | succ k => exact hpre k (Nat.lt_of_succ_lt_succ hj) (Nat.lt_of_succ_lt_succ hjlt)

/-- C2: selection over candidates in supplied order with running best
initialized at the threshold.  Empty candidates give `NoMatch`;
`NoMatch` holds exactly when no confidence strictly exceeds the
threshold (so a candidate scoring exactly at the threshold is never
selected); a match carries its own confidence, strictly exceeds the
threshold, is maximal among all candidates, and is the earliest
candidate attaining that confidence (ties keep the earliest seen); on
`NoMatch` no download URL is produced; the default threshold is 0.2. -/
theorem c2_selectBest_spec (confP : SearchResult → ℚ) (cands : List SearchResult)
    (thresh : ℚ) :
    selectBest (fun r => .ok (confP r)) [] thresh = .ok none ∧
    (selectBest (fun r => .ok (confP r)) cands thresh = .ok none ↔
      ∀ r ∈ cands, confP r ≤ thresh) ∧
    (∀ c q, selectBest (fun r => .ok (confP r)) cands thresh = .ok (some (c, q)) →
      q = confP c ∧ thresh < confP c ∧ (∀ r ∈ cands, confP r ≤ confP c) ∧
      ∃ i, ∃ hi : i < cands.length, cands.get ⟨i, hi⟩ = c ∧
        ∀ j, ∀ hj : j < cands.length, j < i → confP (cands.get ⟨j, hj⟩) < confP c) ∧
    (∀ simfn search t dls, (processTrack simfn search thresh t).2 = .ok (none, dls) →
      dls = []) ∧
    defaultThresh = 0.2 := by
  refine ⟨rfl, ⟨?_, ?_⟩, ?_, ?_, rfl⟩
  · intro h r hr
    by_contra hgt
    push_neg at hgt
    rcases selectLoop_exists_gt confP cands thresh ⟨r, hr, hgt⟩ with ⟨bc', c', heq⟩
    unfold selectBest at h
    rw [heq] at h
    simp at h
  · intro h
    unfold selectBest
    rw [selectLoop_all_le confP cands thresh h]
    rfl
  · intro c q h
    unfold selectBest at h
    rcases heq : selectLoop (fun r => .ok (confP r)) cands thresh none with e | ⟨bc', bm'⟩
    · rw [heq] at h
      exact absurd h (by simp)
    · rw [heq] at h
      simp only [Except.ok.injEq] at h
      rcases bm' with _ | c''
      · simp at h
      · simp only [Option.map_some'] at h
        have h' := Option.some.inj h
        obtain ⟨rfl, rfl⟩ : c = c'' ∧ q = bc' :=
          ⟨(congrArg Prod.fst h').symm, (congrArg Prod.snd h').symm⟩
        have hq : q = confP c :=
          selectLoop_fst_of_some confP cands thresh none q c
            (fun c0 e => Option.noConfusion e) heq
        have hmax : q = cands.foldl (fun b r => max b (confP r)) thresh :=
          selectLoop_fst confP cands thresh none q (some c) heq
        rcases selectLoop_earliest_none confP cands thresh q c heq with
          ⟨i, hi, hget, hthresh, hpre⟩
        refine ⟨hq, hthresh, fun r hr => ?_, ⟨i, hi, hget, hpre⟩⟩
        rw [← hq, hmax]
        exact mem_le_foldl_max confP cands thresh r hr
  · intro simfn search t dls h
    simp only [processTrack] at h
    rcases hsel : selectBest (calculate_confidence simfn { t with duration := t.duration / 1000 })
        (search { t with duration := t.duration / 1000 }) thresh with e | bm
    · rw [hsel] at h
      exact absurd h (by simp)
    · rw [hsel] at h
      rcases bm with _ | rq
      · simp only [Except.ok.injEq, Prod.mk.injEq] at h
        exact h.2.symm
      · simp only [Except.ok.injEq, Prod.mk.injEq] at h
        exact absurd h.1 (by simp)

/-- C2 witness: on two candidates tying at confidence 1 with threshold
0.2, the earlier one is selected with its own confidence, which is
maximal and strictly above the threshold. -/
theorem c2_selectBest_spec_witness :
    (1 : ℚ) = cW wA ∧ (0.2 : ℚ) < cW wA ∧ (∀ r ∈ [wA, wB], cW r ≤ cW wA) ∧
    ∃ i, ∃ hi : i < ([wA, wB]).length, ([wA, wB]).get ⟨i, hi⟩ = wA ∧
      ∀ j, ∀ hj : j < ([wA, wB]).length, j < i → cW (([wA, wB]).get ⟨j, hj⟩) < cW wA :=
  (c2_selectBest_spec cW [wA, wB] 0.2).2.2.1 wA 1
    (by norm_num [selectBest, selectLoop, cW, wA, wB])

/-- Keys of emitted tracks are never in the `seen` set they started
under. -/
theorem dedupGo_key_not_mem (l : List Track) : ∀ seen u, u ∈ dedupGo seen l →
    trackKey u ∉ seen := by
  induction l with
  | nil =>
    intro seen u hu
    cases hu
  | cons t ts ih =>
    intro seen u hu
    by_cases h : trackKey t ∈ seen
    · simp only [dedupGo, if_pos h] at hu
      exact ih seen u hu
    · simp only [dedupGo, if_neg h] at hu
      rcases List.mem_cons.mp hu with rfl | hu'
      · exact h
      · have hn := ih _ u hu'
        exact fun hs => hn (List.mem_cons_of_mem _ hs)

/-- The deduplicated output has pairwise distinct keys. -/
theorem dedupGo_pairwise (l : List Track) : ∀ seen,
    (dedupGo seen l).Pairwise (fun a b => trackKey a ≠ trackKey b) := by
  induction l with
  | nil => intro seen; exact List.Pairwise.nil
  | cons t ts ih =>
    intro seen
    by_cases h : trackKey t ∈ seen
    · simp only [dedupGo, if_pos h]
      exact ih seen
    · simp only [dedupGo, if_neg h]
      refine List.Pairwise.cons ?_ (ih _)
      intro u hu he
      exact dedupGo_key_not_mem ts _ u hu (by rw [← he]; exact List.mem_cons_self _ _)

/-- The deduplicated output is a sublist of the input (order kept). -/
theorem dedupGo_sublist (l : List Track) : ∀ seen, List.Sublist (dedupGo seen l) l := by
  induction l with
  | nil =>
    intro seen
    simp [dedupGo]
  | cons t ts ih =>
    intro seen
    by_cases h : trackKey t ∈ seen
    · simp only [dedupGo, if_pos h]
      exact List.Sublist.cons t (ih seen)
    · simp only [dedupGo, if_neg h]
      exact List.Sublist.cons₂ t (ih _)

/-- Every input key is either already seen or represented in the
output. -/
theorem dedupGo_complete (l : List Track) : ∀ seen t, t ∈ l →
    trackKey t ∈ seen ∨ ∃ u ∈ dedupGo seen l, trackKey u = trackKey t := by
  induction l with
  | nil =>
    intro seen t ht
    cases ht
  | cons a ts ih =>
    intro seen t ht
    by_cases h : trackKey a ∈ seen
    · simp only [dedupGo, if_pos h]
      rcases List.mem_cons.mp ht with rfl | ht'
      · exact Or.inl h
      · exact ih seen t ht'
    · simp only [dedupGo, if_neg h]
      rcases List.mem_cons.mp ht with rfl | ht'
      · exact Or.inr ⟨t, List.mem_cons_self _ _, rfl⟩
      · rcases ih (trackKey a :: seen) t ht' with hs | ⟨u, hu, hk⟩
        · rcases List.mem_cons.mp hs with he | hs'
          · exact Or.inr ⟨a, List.mem_cons_self _ _, he.symm⟩
          · exact Or.inl hs'
        · exact Or.inr ⟨u, List.mem_cons_of_mem _ hu, hk⟩

/-- An element whose key is unseen and has no earlier occurrence of its
key is kept. -/
theorem dedupGo_first_kept (l : List Track) : ∀ seen i (hi : i < l.length),
    trackKey (l.get ⟨i, hi⟩) ∉ seen →
    (∀ j (hj : j < l.length), j < i → trackKey (l.get ⟨j, hj⟩) ≠ trackKey (l.get ⟨i, hi⟩)) →
    l.get ⟨i, hi⟩ ∈ dedupGo seen l := by
  induction l with
  | nil =>
    intro seen i hi _ _
    exact absurd hi (Nat.not_lt_zero i)
  | cons a ts ih =>
    intro seen i hi hns hpre
    cases i with
    | zero =>
      by_cases h : trackKey a ∈ seen
      · exact absurd h hns
      · simp only [dedupGo, if_neg h]
        exact List.mem_cons_self _ _
    | succ k =>
      have hk : k < ts.length := Nat.lt_of_succ_lt_succ hi
      by_cases h : trackKey a ∈ seen
      · simp only [dedupGo, if_pos h]
        exact ih seen k hk hns
          fun j hj hjk => hpre (j + 1) (Nat.succ_lt_succ hj) (Nat.succ_lt_succ hjk)
      · simp only [dedupGo, if_neg h]
        refine List.mem_cons_of_mem a (ih (trackKey a :: seen) k hk ?_ ?_)
        · intro hmem
          rcases List.mem_cons.mp hmem with he | hs
          · exact hpre 0 (Nat.succ_pos _) (Nat.succ_pos _) he.symm
          · exact hns hs
        · intro j hj hjk
          exact hpre (j + 1) (Nat.succ_lt_succ hj) (Nat.succ_lt_succ hjk)

/-- Every kept element sits at an input position such that every
earlier position either has a different key or a key seen from the
start. -/
theorem dedupGo_first_occ (l : List Track) : ∀ seen u, u ∈ dedupGo seen l →
    ∃ i, ∃ hi : i < l.length, l.get ⟨i, hi⟩ = u ∧
      ∀ j (hj : j < l.length), j < i →
        trackKey (l.get ⟨j, hj⟩) ≠ trackKey u ∨ trackKey (l.get ⟨j, hj⟩) ∈ seen := by
  induction l with
  | nil =>
    intro seen u hu
    cases hu
  | cons a ts ih =>
    intro seen u hu
    by_cases h : trackKey a ∈ seen
    · simp only [dedupGo, if_pos h] at hu
      rcases ih seen u hu with ⟨i, hi, hget, hpre⟩
      refine ⟨i + 1, Nat.succ_lt_succ hi, hget, ?_⟩
      intro j hj hjlt
      cases j with
      | zero => exact Or.inr h
      | succ k => exact hpre k (Nat.lt_of_succ_lt_succ hj) (Nat.lt_of_succ_lt_succ hjlt)
    · simp only [dedupGo, if_neg h] at hu
      rcases List.mem_cons.mp hu with rfl | hu'
      · exact ⟨0, Nat.succ_pos _, rfl, fun j hj hj0 => absurd hj0 (Nat.not_lt_zero j)⟩
      · have hkey := dedupGo_key_not_mem ts (trackKey a :: seen) u hu'
        rcases ih _ u hu' with ⟨i, hi, hget, hpre⟩
        refine ⟨i + 1, Nat.succ_lt_succ hi, hget, ?_⟩
        intro j hj hjlt
        cases j with
        | zero =>
          refine Or.inl fun he => ?_
          exact hkey (by rw [← he]; exact List.mem_cons_self _ _)
        | succ k =>
          rcases hpre k (Nat.lt_of_succ_lt_succ hj) (Nat.lt_of_succ_lt_succ hjlt) with hne | hin
          · exact Or.inl hne
          · rcases List.mem_cons.mp hin with he | hs
            · refine Or.inl ?_
              show trackKey (ts.get ⟨k, Nat.lt_of_succ_lt_succ hj⟩) ≠ trackKey u
              rw [he]
              intro he2
              exact hkey (by rw [← he2]; exact List.mem_cons_self _ _)
            · exact Or.inr hs

/-- C4: deduplication never keeps two records with the same
case-insensitive (title, artist) key, keeps records in input order (a
sublist), represents every input key, keeps exactly the records with no
earlier same-key occurrence, and every kept record is the first
occurrence of its key. -/
theorem c4_dedup_spec (l : List Track) :
    (dedupTracks l).Pairwise (fun a b => trackKey a ≠ trackKey b) ∧
    List.Sublist (dedupTracks l) l ∧
    (∀ t ∈ l, ∃ u ∈ dedupTracks l, trackKey u = trackKey t) ∧
    (∀ i (hi : i < l.length),
      (∀ j (hj : j < l.length), j < i →
        trackKey (l.get ⟨j, hj⟩) ≠ trackKey (l.get ⟨i, hi⟩)) →
      l.get ⟨i, hi⟩ ∈ dedupTracks l) ∧
    (∀ u ∈ dedupTracks l, ∃ i, ∃ hi : i < l.length, l.get ⟨i, hi⟩ = u ∧
      ∀ j (hj : j < l.length), j < i → trackKey (l.get ⟨j, hj⟩) ≠ trackKey u) := by
  refine ⟨dedupGo_pairwise l [], dedupGo_sublist l [], ?_, ?_, ?_⟩
  · intro t ht
    rcases dedupGo_complete l [] t ht with hs | h
    · cases hs
    · exact h
  · intro i hi hpre
    exact dedupGo_first_kept l [] i hi (by simp) hpre
  · intro u hu
    rcases dedupGo_first_occ l [] u hu with ⟨i, hi, hget, hpre⟩
    refine ⟨i, hi, hget, ?_⟩
    intro j hj hjlt
    rcases hpre j hj hjlt with hne | hin
    · exact hne
    · cases hin

/-- C4 witness: a list with a case-insensitive duplicate keeps the first
occurrence only, in order, and the dropped record's key stays
represented. -/
theorem c4_dedup_spec_witness :
    dedupTracks [tU1, tU2, tU3] = [tU1, tU3] ∧
    ∃ u ∈ dedupTracks [tU1, tU2, tU3], trackKey u = trackKey tU2 :=
  ⟨by decide, (c4_dedup_spec [tU1, tU2, tU3]).2.2.1 tU2 (by decide)⟩

/-- C5 counterexample: a track entry whose only missing field is
`contentDescriptor` does not degrade to defaults — its `KeyError`
escapes the per-block `except json.JSONDecodeError` and the page-level
handler drops the WHOLE page, including the complete track of a later
block (which alone extracts fine).  Likewise a block that decodes to
valid JSON of the wrong shape (here an empty dict) kills the page
rather than being skipped individually. -/
theorem c5_missing_field_aborts_page :
    method1_web_scraping (.ok [some blockNoDescriptor, some blockComplete]) = [] ∧
    method1_web_scraping (.ok [some blockComplete]) = [goodTrack] ∧
    method1_web_scraping (.ok [some (.obj []), some blockComplete]) = [] :=
  ⟨by decide, by decide, by decide⟩

/-- C5 (amended): absence of `title`, `artistName` or `duration` yields
`''`/`''`/`0` for that record without failure, but absence of
`contentDescriptor` raises `KeyError` for the record; only blocks that
fail JSON decoding are skipped individually, while any other error in a
block aborts the whole page's extraction, which the page-level handler
turns into the empty track list. -/
theorem c5_field_defaults_amended :
    (∀ o u, jlookup o kTitle = none → jlookup o kArtistName = none →
      jlookup o kDuration = none →
      jlookup o kContentDescriptor = some (.obj [(kUrl, .str u)]) →
      buildTrack (.obj o) =
        .ok { title := [], artist := [], duration := 0, url := u }) ∧
    (∀ o, jlookup o kContentDescriptor = none →
      buildTrack (.obj o) = .error .keyError) ∧
    (∀ rest acc, scriptsLoop (none :: rest) acc = scriptsLoop rest acc) ∧
    (∀ scripts e, scriptsLoop scripts [] = .error e →
      method1_web_scraping (.ok scripts) = []) := by
  refine ⟨?_, ?_, ?_, ?_⟩
  · intro o u h1 h2 h3 h4
    simp only [buildTrack, h4, except_bind_ok, h1, h2, h3]
    rfl
  · intro o h
    simp only [buildTrack, h]
    rfl
  · intro rest acc
    rfl
  · intro scripts e h
    simp [method1_web_scraping, h]

/-- C5 witness: a record with only `contentDescriptor` present gets all
defaults; one without `contentDescriptor` raises. -/
theorem c5_field_defaults_amended_witness :
    buildTrack (.obj [(kContentDescriptor, .obj [(kUrl, .str "u".data)])]) =
      .ok { title := [], artist := [], duration := 0, url := "u".data } ∧
    buildTrack (.obj [(kTitle, .str "Song B".data)]) = .error .keyError :=
  ⟨c5_field_defaults_amended.1 _ "u".data rfl rfl rfl rfl,
   c5_field_defaults_amended.2.1 _ rfl⟩

/-- C6: any network error, and any parse error escaping the per-block
skip, is caught inside the extractor, which returns the empty track
list for that page; when nothing raises, the scraped tracks are
returned; the function is total, so no error propagates as a crash. -/
theorem c6_extraction_errors_caught (fetched : Except PyErr (List (Option Json))) :
    (∀ e, fetched = .error e → method1_web_scraping fetched = []) ∧
    (∀ scripts e, fetched = .ok scripts → scriptsLoop scripts [] = .error e →
      method1_web_scraping fetched = []) ∧
    (∀ scripts ts, fetched = .ok scripts → scriptsLoop scripts [] = .ok ts →
      method1_web_scraping fetched = ts) := by
  refine ⟨?_, ?_, ?_⟩
  · intro e he
    subst he
    rfl
  · intro scripts e he hl
    subst he
    simp [method1_web_scraping, hl]
  · intro scripts ts he hl
    subst he
    simp [method1_web_scraping, hl]

/-- C6 witness: a failed fetch gives `[]`, a page whose only block is a
non-subscriptable value gives `[]`, a well-formed page gives its
tracks. -/
theorem c6_extraction_errors_caught_witness :
    method1_web_scraping (.error .typeError) = [] ∧
    method1_web_scraping (.ok [some (.num 3)]) = [] ∧
    method1_web_scraping (.ok [some blockComplete]) = [goodTrack] :=
  ⟨(c6_extraction_errors_caught (.error .typeError)).1 .typeError rfl,
   (c6_extraction_errors_caught (.ok [some (.num 3)])).2.1 [some (.num 3)] .typeError rfl rfl,
   (c6_extraction_errors_caught (.ok [some blockComplete])).2.2 [some blockComplete]
     [goodTrack] rfl (by decide)⟩

/-- C7 counterexample: the matching stage does NOT leave track records
unmodified — `track['duration'] = track['duration']/1000.0` overwrites
the duration field in place, so a track entering with 200000 leaves
with 200. -/
theorem c7_track_mutated :
    (processTrack (fun _ _ => 0) (fun _ => []) defaultThresh songW).1 ≠ songW ∧
    (processTrack (fun _ _ => 0) (fun _ => []) defaultThresh songW).1.duration = 200 ∧
    songW.duration = 200000 := by
  refine ⟨?_, ?_, rfl⟩
  · intro h
    have h2 := congrArg Song.duration h
    simp only [processTrack, songW] at h2
    norm_num at h2
  · norm_num [processTrack, songW]

/-- C7 (amended): the matching stage preserves title, artist and album,
but overwrites duration with its value divided by 1000 (converting
milliseconds to seconds) before scoring. -/
theorem c7_mutation_amended (simfn : List Char → List Char → ℚ)
    (search : Song → List SearchResult) (thresh : ℚ) (t : Song) :
    (processTrack simfn search thresh t).1.title = t.title ∧
    (processTrack simfn search thresh t).1.artist = t.artist ∧
    (processTrack simfn search thresh t).1.album = t.album ∧
    (processTrack simfn search thresh t).1.duration = t.duration / 1000 :=
  ⟨rfl, rfl, rfl, rfl⟩

/-- C8: the main loop attempts every playlist and a non-final playlist
with no tracks is not fatal, and the downloading stage receives only
the last playlist's songs — but when the LAST playlist yields no
tracks, `get_tracklist` returns `None` and `tracks['songs']` raises
`TypeError`, so the process crashes instead of exiting normally (and an
empty playlist argument list would leave `tracks` unbound). -/
theorem c8_last_empty_crash :
    mainModel [.ok [some blockComplete], .error .typeError] = .error .typeError ∧
    mainModel [.error .typeError, .ok [some blockComplete]] = .ok [songOfTrack goodTrack] ∧
    mainModel [.ok [some blockComplete]] = .ok [songOfTrack goodTrack] ∧
    mainModel [] = .error .nameError :=
  ⟨by decide, by decide, by decide, rfl⟩

/-- Reading back the serialized `songs` list recovers every track's
four persisted fields. -/
theorem readSongs_map (ts : List Track) :
    readSongs (ts.map trackToJson) =
      some (ts.map fun t =>
        { title := t.title, artist := t.artist, album := t.album,
          duration := t.duration }) := by
  induction ts with
  | nil => rfl
  | cons t ts ih =>
    have hs : readSong (trackToJson t) =
        some { title := t.title, artist := t.artist, album := t.album,
               duration := t.duration } := rfl
    simp only [List.map_cons, readSongs]
    rw [hs, ih]
    rfl

/-- C9: writing the JSON cache and re-reading it reproduces an
equivalent sequence of track records — title, artist, album and
duration are preserved exactly (the fields not persisted come back at
their dataclass defaults, so the `Song` projections agree). -/
theorem c9_cache_roundtrip (playlist_url : List Char) (tracks : List Track) :
    readTracksData (tracks_data_json playlist_url tracks) =
      some (tracks.map fun t =>
        { title := t.title, artist := t.artist, album := t.album,
          duration := t.duration }) ∧
    (readTracksData (tracks_data_json playlist_url tracks)).map (fun l => l.map songOfTrack) =
      some (tracks.map songOfTrack) := by
  have h : readTracksData (tracks_data_json playlist_url tracks) =
      readSongs (tracks.map trackToJson) := rfl
  constructor
  · rw [h, readSongs_map]
  · rw [h, readSongs_map]
    simp only [Option.map_some']
    rw [List.map_map]
    rfl
